import Mathlib

/-!
# Verification of the gdb-index core (`ELF/GdbIndex.cpp`)

This development gives a shallow embedding of the two components of the
excerpt and proves the specified properties about them:

* `GdbHashTab` — the deduplicating symbol store (`GdbHashTab::add`) and the
  open-addressing layout builder (`GdbHashTab::finalizeContents`).
* `LLDDwarfObj` — per-object-file classification of named debug sections
  (the `LLDDwarfObj` constructor) and relocation lookup/resolution
  (`LLDDwarfObj::findAux` / `LLDDwarfObj::find`).

Machine integers are embedded as `Nat` with explicit reductions modulo
`2 ^ 32` / `2 ^ 64` at the points where the C++ arithmetic can wrap.
The object-file model (section list, relocation lists, symbol table) is the
narrow external interface described in the specification; the linker types
behind it are not part of the excerpt.
-/

/-- One debugger-index symbol candidate.  Modelled from the spec and the
uses in `GdbIndex.cpp` (`GdbSymbol` itself is declared in `GdbIndex.h`,
which is not part of the excerpt): `nameHash` is the externally computed
32-bit name hash (`Sym->NameHash`), `offset` the identity key
(`make<GdbSymbol>(Hash, Offset)`). -/
structure GdbSymbol where
  nameHash : Nat
  offset : Nat
  deriving DecidableEq, Repr

/-- The symbol hash-table builder.  Modelled from the spec: the container
declarations live in `GdbIndex.h`, which is missing from the excerpt; per
the spec (§3) the deduplicating mapping from identity key to entry is
insertion-ordered, so `map` is an insertion-ordered association list.
`table` is the slot array populated by `finalizeContents`. -/
structure GdbHashTab where
  map : List (Nat × GdbSymbol)
  table : List (Option GdbSymbol)
  deriving DecidableEq, Repr

/-- A freshly constructed `GdbHashTab`: no entries, no slot array. -/
def GdbHashTab.empty : GdbHashTab := ⟨[], []⟩

/-- `GdbHashTab::add(uint32_t Hash, size_t Offset)`: look the key up; if an
entry exists return `(false, existing)` and change nothing, otherwise create
the entry, record it, and return `(true, new)`.  The updated table is
returned as the second component (the C++ method mutates `this`). -/
def GdbHashTab.add (tab : GdbHashTab) (hash offset : Nat) :
    (Bool × GdbSymbol) × GdbHashTab :=
  match tab.map.lookup offset with
  | some sym => ((false, sym), tab)
  | none =>
    let sym : GdbSymbol := ⟨hash, offset⟩
    ((true, sym), { tab with map := tab.map ++ [(offset, sym)] })

/-- Run a whole sequence of `add` calls (each call is a `(hash, offset)`
pair) against an initially empty table. -/
def GdbHashTab.addAll (calls : List (Nat × Nat)) : GdbHashTab :=
  calls.foldl (fun tab c => (tab.add c.1 c.2).2) GdbHashTab.empty

/-- Fuel-driven core of `llvm::NextPowerOf2`: starting from the power of
two `p`, keep doubling until the result exceeds `a`. -/
def np2go : Nat → Nat → Nat → Nat
  | 0, _, p => p
  | fuel + 1, a, p => if a < p then p else np2go fuel a (2 * p)

/-- `llvm::NextPowerOf2(A)` (from `llvm/Support/MathExtras.h`, an LLVM
support routine external to the excerpt): the smallest power of two
strictly greater than `A`.  The C++ returns `uint64_t` and yields zero
when that power overflows 64 bits; the model returns the mathematical
`2 ^ 64` then, which agrees with the C++ after the 32-bit narrowing
applied at the sole use site (`finalizeSize`). -/
def NextPowerOf2 (a : Nat) : Nat := np2go (a + 1) a 1

/-- Slot-array size chosen by `GdbHashTab::finalizeContents` for `n`
entries: `std::max<uint32_t>(1024, NextPowerOf2(Map.size() * 4 / 3))`.
`Map.size()` is `size_t`, so `Map.size() * 4` wraps modulo `2 ^ 64`;
`NextPowerOf2` computes in `uint64_t`; and `std::max<uint32_t>` narrows
its 64-bit result to 32 bits — hence the reduction modulo `2 ^ 32`.  In
particular for `n * 4 / 3 ≥ 2 ^ 31` the narrowed value wraps to 0 and the
chosen size collapses to 1024. -/
def finalizeSize (n : Nat) : Nat :=
  max 1024 (NextPowerOf2 (n * 4 % 2 ^ 64 / 3) % 2 ^ 32)

/-- Initial probe index `Sym->NameHash & Mask`. -/
def probeStart (hash mask : Nat) : Nat := hash &&& mask

/-- Probe step `((Sym->NameHash * 17) & Mask) | 1`.  The multiplication is
32-bit unsigned, hence the explicit reduction modulo `2 ^ 32`. -/
def probeStep (hash mask : Nat) : Nat := (hash * 17 % 2 ^ 32 &&& mask) ||| 1

/-- One probe advance `I = (I + Step) & Mask`. -/
def probeNext (step mask i : Nat) : Nat := (i + step) &&& mask

/-- The index probed after `k` advances from `i`. -/
def probeAt (i step mask : Nat) : Nat → Nat
  | 0 => i
  | k + 1 => probeNext step mask (probeAt i step mask k)

/-- The placement loop of `finalizeContents`
(`while (Table[I]) I = (I + Step) & Mask`), with explicit fuel: the first
probed index holding an empty slot, probing at most `fuel` slots.  The C++
loop is unbounded; fuel `Table.size()` suffices by the full-cycle property
(claim C3). -/
def findSlot (table : List (Option GdbSymbol)) (i step mask : Nat) :
    Nat → Option Nat
  | 0 => none
  | fuel + 1 =>
    if (table.getD i none).isSome then
      findSlot table (probeNext step mask i) step mask fuel
    else some i

/-- Place one symbol: run the probe loop and store the symbol in the slot
it finds (`Table[I] = Sym`).  When no empty slot exists among the first
`Table.size()` probes — a full table, where the C++ `while` loop would
never terminate — the fueled model returns the table unchanged; placement
theorems therefore restrict to entry counts whose sizing guarantees an
empty slot. -/
def placeSymbol (table : List (Option GdbSymbol)) (sym : GdbSymbol)
    (mask : Nat) : List (Option GdbSymbol) :=
  match findSlot table (probeStart sym.nameHash mask)
      (probeStep sym.nameHash mask) mask table.length with
  | some i => table.set i (some sym)
  | none => table

/-- `GdbHashTab::finalizeContents()`: size the slot array, then place every
entry, in the mapping's (insertion) order, by open-addressing probing.
Once the 32-bit size computation wraps (`n * 4 / 3 ≥ 2 ^ 31`) the real
table has only 1024 slots for more than `2 ^ 31` entries and the C++
placement loop runs forever once they fill; the fueled model instead
leaves the surplus entries unplaced, so theorems about completed placement
carry the no-wrap hypothesis `n * 4 / 3 < 2 ^ 31`. -/
def GdbHashTab.finalizeContents (tab : GdbHashTab) : GdbHashTab :=
  let size := finalizeSize tab.map.length
  let mask := size - 1
  { tab with
    table := tab.map.foldl (fun t p => placeSymbol t p.2 mask)
      (List.replicate size none) }

/-- Specification-side placement: the symbol goes to slot
`probeAt i0 step mask k` for the least `k` whose slot is empty, where `i0`
is the initial probe index and the search ranges over the first
`table.length` probes (by the full-cycle property these cover the whole
probe sequence).  Used to state claim C2 against `placeSymbol`. -/
def placeFirstEmpty (table : List (Option GdbSymbol)) (sym : GdbSymbol)
    (mask : Nat) : List (Option GdbSymbol) :=
  let i0 := probeStart sym.nameHash mask
  let step := probeStep sym.nameHash mask
  match (List.range table.length).find?
      (fun k => (table.getD (probeAt i0 step mask k) none).isNone) with
  | some k => table.set (probeAt i0 step mask k) (some sym)
  | none => table

/-- An addend-explicit (`Elf_Rela`) relocation record: source offset,
referenced-symbol index, and the explicit addend `r_addend`. -/
structure ElfRela where
  r_offset : Nat
  symIndex : Nat
  r_addend : Int
  deriving DecidableEq, Repr

/-- An addend-implicit (`Elf_Rel`) relocation record: source offset and
referenced-symbol index.  Modelled from the spec: in the addend-implicit
form the addend is stored beside the instruction, i.e. in the section
bytes at the relocated position; we carry that decoded value as the
`implicitAddend` field since raw byte decoding is outside the excerpt. -/
structure ElfRel where
  r_offset : Nat
  symIndex : Nat
  implicitAddend : Int
  deriving DecidableEq, Repr

/-- One input section of the object-file model of §6 of the spec: name,
raw bytes, the `SHF_ALLOC` loadability flag, the output-file offset
supplied by the layout oracle (`getOffsetInFile`), and the relocation
list in whichever form (`AreRelocsRela`) the object uses. -/
structure InputSectionData where
  name : String
  data : List Nat
  shf_alloc : Bool
  offsetInFile : Nat
  areRelocsRela : Bool
  relas : List ElfRela
  rels : List ElfRel
  deriving DecidableEq, Repr

/-- The all-default section used where the C++ dereferences a pointer the
model represents by a lookup (inputs are assumed pre-validated, §7). -/
def emptyInputSection : InputSectionData := ⟨"", [], false, 0, false, [], []⟩

/-- A locally defined, section-relative symbol (`DefinedRegular`): its
value and the index, within the object's section table, of its defining
section (`getSectionIndex`).  Other symbol kinds are outside the specified
behavior (§9). -/
structure DefinedRegular where
  value : Nat
  secIndex : Nat
  deriving DecidableEq, Repr

/-- The object-file model consumed by the resolver: the ordered section
list (entries may be absent, i.e. null) and the symbol table. -/
structure ObjFile where
  sections : List (Option InputSectionData)
  symbols : List DefinedRegular
  deriving DecidableEq, Repr

/-- The result of a successful relocation lookup (`RelocAddrEntry`):
the defining section's index and the resolved value. -/
structure RelocAddrEntry where
  secIndex : Nat
  value : Nat
  deriving DecidableEq, Repr

/-- A typed debug-section handle (`LLDDWARFSection`): borrowed raw bytes
plus the descriptor of the underlying section (`none` until the
constructor fills it in). -/
structure LLDDWARFSection where
  data : List Nat
  sec : Option InputSectionData
  deriving DecidableEq, Repr

/-- `getAddend<ELFT>` on an addend-explicit record: the stored
`r_addend`. -/
def getAddendRela (r : ElfRela) : Int := r.r_addend

/-- Modelled from the spec: `getAddend<ELFT>` on an addend-implicit record
is defined in `InputSection.h`, which is not part of the excerpt; §4.2
normalizes both forms "to the same explicit sum", so it yields the addend
stored beside the instruction. -/
def getAddendRel (r : ElfRel) : Int := r.implicitAddend

/-- The symbol-resolution tail of `LLDDwarfObj::findAux` (lines 87-101):
from the matched relocation's symbol index and addend, look the symbol up,
compute `SecIndex`, `Val = DR.Value + addend` in 64-bit arithmetic, and
add the defining section's output-file offset exactly when the section has
`SHF_ALLOC`. -/
def resolveReloc (file : ObjFile) (symIndex : Nat) (addend : Int) :
    RelocAddrEntry :=
  let dr := file.symbols.getD symIndex ⟨0, 0⟩
  let secIndex := dr.secIndex
  let defSec := (file.sections.getD secIndex none).getD emptyInputSection
  let val := (((dr.value : Int) + addend) % 2 ^ 64).toNat
  let val := if defSec.shf_alloc then (val + defSec.offsetInFile) % 2 ^ 64
    else val
  ⟨secIndex, val⟩

/-- `LLDDwarfObj::findAux(Sec, Pos, Rels)`, generic over the record type
`RelTy` exactly as the C++ template is: find the first relocation whose
`r_offset` equals `Pos` (`llvm::find_if`); if none exists return `None`,
otherwise resolve the matched relocation. -/
def findAux {R : Type} (file : ObjFile) (pos : Nat) (offsetOf : R → Nat)
    (symOf : R → Nat) (addendOf : R → Int) (rels : List R) :
    Option RelocAddrEntry :=
  match rels.find? (fun r => offsetOf r == pos) with
  | none => none
  | some rel => some (resolveReloc file (symOf rel) (addendOf rel))

/-- The per-object resolver: the object file together with the six
recognized handles built by the constructor. -/
structure LLDDwarfObj where
  obj : ObjFile
  infoSection : LLDDWARFSection
  rangeSection : LLDDWARFSection
  lineSection : LLDDWARFSection
  abbrevSection : List Nat
  gnuPubNamesSection : List Nat
  gnuPubTypesSection : List Nat
  deriving DecidableEq, Repr

/-- The resolver state before any section is classified. -/
def initDwarfObj (file : ObjFile) : LLDDwarfObj :=
  ⟨file, ⟨[], none⟩, ⟨[], none⟩, ⟨[], none⟩, [], [], []⟩

/-- The per-section body of the `LLDDwarfObj` constructor loop: dispatch on
the exact section name; the three typed names record bytes and descriptor,
the three opaque names record bytes only, anything else is ignored. -/
def classifySection (st : LLDDwarfObj) (sec : InputSectionData) :
    LLDDwarfObj :=
  if sec.name = ".debug_info" then
    { st with infoSection := ⟨sec.data, some sec⟩ }
  else if sec.name = ".debug_ranges" then
    { st with rangeSection := ⟨sec.data, some sec⟩ }
  else if sec.name = ".debug_line" then
    { st with lineSection := ⟨sec.data, some sec⟩ }
  else if sec.name = ".debug_abbrev" then
    { st with abbrevSection := sec.data }
  else if sec.name = ".debug_gnu_pubnames" then
    { st with gnuPubNamesSection := sec.data }
  else if sec.name = ".debug_gnu_pubtypes" then
    { st with gnuPubTypesSection := sec.data }
  else st

/-- The `LLDDwarfObj` constructor: walk the object's section list, skip
null entries (`if (!Sec) continue;`), classify the rest. -/
def mkLLDDwarfObj (file : ObjFile) : LLDDwarfObj :=
  file.sections.foldl
    (fun st os =>
      match os with
      | none => st
      | some sec => classifySection st sec)
    (initDwarfObj file)

/-- `LLDDwarfObj::find(S, Pos)`: recover the underlying section from the
handle, then run `findAux` over whichever relocation form the section
carries (`AreRelocsRela`). -/
def LLDDwarfObj.find (d : LLDDwarfObj) (s : LLDDWARFSection) (pos : Nat) :
    Option RelocAddrEntry :=
  let sec := s.sec.getD emptyInputSection
  if sec.areRelocsRela then
    findAux d.obj pos ElfRela.r_offset ElfRela.symIndex getAddendRela sec.relas
  else
    findAux d.obj pos ElfRel.r_offset ElfRel.symIndex getAddendRel sec.rels

/-- The relocation source offsets of the active relocation list of a
section, used to state claim C6. -/
def relocOffsets (sec : InputSectionData) : List Nat :=
  if sec.areRelocsRela then sec.relas.map ElfRela.r_offset
  else sec.rels.map ElfRel.r_offset

/-- A concrete table with 768 entries. -/
def tab768 : GdbHashTab := ⟨(List.range 768).map (fun i => (i, ⟨i, i⟩)), []⟩

/-- A concrete table with 2000 entries. -/
def tab2000 : GdbHashTab := ⟨(List.range 2000).map (fun i => (i, ⟨i, i⟩)), []⟩

/-- A table with `n` entries filed under the keys `0, …, n-1`. -/
def mkRangeTab (n : Nat) : GdbHashTab :=
  ⟨(List.range n).map (fun i => (i, ⟨i, i⟩)), []⟩

/-- A table with `1610612736 = 3 · 2 ^ 29` entries: the smallest entry
count at which `floor(n * 4 / 3) = 2 ^ 31`, so `NextPowerOf2` returns
`2 ^ 32` and the `uint32_t` narrowing wraps the size to 1024. -/
def tabBig : GdbHashTab := mkRangeTab 1610612736

/-- An `add`-call sequence with `n` distinct keys `0, …, n-1`. -/
def mkRangeCalls (n : Nat) : List (Nat × Nat) :=
  (List.range n).map (fun i => (i, i))

/-- An `add`-call sequence with `1610612736` distinct keys, reaching the
size-wrap region through `addAll`. -/
def callsBig : List (Nat × Nat) := mkRangeCalls 1610612736

/-- Object file for the C5 witness: a loadable `.text` section (index 0,
output offset `0x1000`) and a non-loadable `.data` section (index 1), with
one defined symbol of value `0x400000` in each. -/
def fileC5 : ObjFile :=
  ⟨[some ⟨".text", [], true, 4096, true, [], []⟩,
      some ⟨".data", [], false, 4096, true, [], []⟩],
    [⟨4194304, 0⟩, ⟨4194304, 1⟩]⟩

/-- Resolver over `fileC5` for the C5 witness. -/
def dC5 : LLDDwarfObj :=
  ⟨fileC5, ⟨[], none⟩, ⟨[], none⟩, ⟨[], none⟩, [], [], []⟩

/-- Debug section whose relocation (offset `0x10`, addend 4) targets the
loadable symbol. -/
def secC5a : InputSectionData :=
  ⟨".debug_info", [], false, 0, true, [⟨16, 0, 4⟩], []⟩

/-- Debug section whose relocation targets the non-loadable symbol. -/
def secC5b : InputSectionData :=
  ⟨".debug_info", [], false, 0, true, [⟨16, 1, 4⟩], []⟩

/-- Resolver for the C7 witness: one non-loadable section, one symbol of
value `0x400000`. -/
def dC7 : LLDDwarfObj :=
  ⟨⟨[some ⟨".data", [], false, 0, true, [], []⟩], [⟨4194304, 0⟩]⟩,
    ⟨[], none⟩, ⟨[], none⟩, ⟨[], none⟩, [], [], []⟩

/-- Addend-explicit section for the C7 witness. -/
def secC7a : InputSectionData :=
  ⟨".debug_info", [], false, 0, true, [⟨16, 0, 4⟩], []⟩

/-- Addend-implicit section for the C7 witness. -/
def secC7b : InputSectionData :=
  ⟨".debug_info", [], false, 0, false, [], [⟨16, 0, 4⟩]⟩


/-! ## Arithmetic facts about `NextPowerOf2` and `finalizeSize` -/

theorem np2go_gt : ∀ (fuel a p : Nat), a < p * 2 ^ fuel → a < np2go fuel a p := by
  intro fuel
  induction fuel with
  | zero => intro a p h; simpa [np2go] using h
  | succ n ih =>
    intro a p h
    rw [np2go]
    split
    · assumption
    · refine ih a (2 * p) ?_
      have heq : 2 * p * 2 ^ n = p * 2 ^ (n + 1) := by rw [Nat.pow_succ]; ring
      omega

theorem np2go_pow : ∀ (fuel a j : Nat), ∃ k, np2go fuel a (2 ^ j) = 2 ^ k := by
  intro fuel
  induction fuel with
  | zero => intro a j; exact ⟨j, rfl⟩
  | succ n ih =>
    intro a j
    rw [np2go]
    split
    · exact ⟨j, rfl⟩
    · have h : 2 * 2 ^ j = 2 ^ (j + 1) := by rw [Nat.pow_succ]; ring
      rw [h]; exact ih a (j + 1)

theorem np2go_min : ∀ (fuel a j k : Nat), j ≤ k → a < 2 ^ k →
    np2go fuel a (2 ^ j) ≤ 2 ^ k := by
  intro fuel
  induction fuel with
  | zero =>
    intro a j k hjk _
    simpa [np2go] using Nat.pow_le_pow_right (by omega) hjk
  | succ n ih =>
    intro a j k hjk hk
    rw [np2go]
    split
    · exact Nat.pow_le_pow_right (by omega) hjk
    · have hj : 2 ^ j ≤ a := by omega
      have hjk' : j < k := by
        have := Nat.lt_of_le_of_lt hj hk
        exact (Nat.pow_lt_pow_iff_right (by omega)).mp this
      have h : 2 * 2 ^ j = 2 ^ (j + 1) := by rw [Nat.pow_succ]; ring
      rw [h]; exact ih a (j + 1) k hjk' hk

/-- `NextPowerOf2 a` is a power of two, exceeds `a`, and is the least power
of two doing so. -/
theorem NextPowerOf2_spec (a : Nat) :
    (∃ k, NextPowerOf2 a = 2 ^ k) ∧ a < NextPowerOf2 a ∧
      ∀ k, a < 2 ^ k → NextPowerOf2 a ≤ 2 ^ k := by
  refine ⟨?_, ?_, ?_⟩
  · simpa [NextPowerOf2] using np2go_pow (a + 1) a 0
  · refine np2go_gt (a + 1) a 1 ?_
    have h := Nat.lt_two_pow a
    have h2 : (2 : Nat) ^ a ≤ 2 ^ (a + 1) := Nat.pow_le_pow_right (by omega) (by omega)
    omega
  · intro k hk
    simpa [NextPowerOf2] using np2go_min (a + 1) a 0 k (Nat.zero_le k) hk

/-- Below the 32-bit wrap region neither the `size_t` multiplication nor
the `uint32_t` narrowing truncates, so the chosen size is the plain
`max 1024 (NextPowerOf2 (n * 4 / 3))`. -/
theorem finalizeSize_eq_untruncated (n : Nat) (h : n * 4 / 3 < 2 ^ 31) :
    finalizeSize n = max 1024 (NextPowerOf2 (n * 4 / 3)) := by
  have h31 : (2 : Nat) ^ 31 = 2147483648 := by norm_num
  have h64 : (2 : Nat) ^ 64 = 18446744073709551616 := by norm_num
  have hmul : n * 4 < 2 ^ 64 := by omega
  have hmod : n * 4 % 2 ^ 64 = n * 4 := Nat.mod_eq_of_lt hmul
  have hnp_le : NextPowerOf2 (n * 4 / 3) ≤ 2 ^ 31 :=
    (NextPowerOf2_spec (n * 4 / 3)).2.2 31 h
  have hlt32 : NextPowerOf2 (n * 4 / 3) < 2 ^ 32 :=
    lt_of_le_of_lt hnp_le (by norm_num)
  unfold finalizeSize
  rw [hmod, Nat.mod_eq_of_lt hlt32]

/-- As long as the 32-bit size computation does not wrap
(`n * 4 / 3 < 2 ^ 31`), `finalizeSize n` is the least power of two that is
at least `1024` and strictly greater than `n * 4 / 3`. -/
theorem finalizeSize_spec (n : Nat) (hw : n * 4 / 3 < 2 ^ 31) :
    (∃ k, finalizeSize n = 2 ^ k) ∧ 1024 ≤ finalizeSize n ∧
      n * 4 / 3 < finalizeSize n ∧
      ∀ m, (∃ k, m = 2 ^ k) → 1024 ≤ m → n * 4 / 3 < m → finalizeSize n ≤ m := by
  obtain ⟨⟨k, hk⟩, hgt, hmin⟩ := NextPowerOf2_spec (n * 4 / 3)
  rw [finalizeSize_eq_untruncated n hw]
  refine ⟨?_, ?_, ?_, ?_⟩
  · rcases Nat.le_total (NextPowerOf2 (n * 4 / 3)) 1024 with h | h
    · exact ⟨10, Nat.max_eq_left h⟩
    · exact ⟨k, by rw [Nat.max_eq_right h]; exact hk⟩
  · exact le_max_left _ _
  · have : NextPowerOf2 (n * 4 / 3) ≤ max 1024 (NextPowerOf2 (n * 4 / 3)) :=
      le_max_right _ _
    omega
  · rintro m ⟨j, rfl⟩ hm1024 hmgt
    exact max_le hm1024 (hmin j hmgt)

/-- Below the wrap region, every entry count is strictly below the chosen
slot-array size. -/
theorem lt_finalizeSize (n : Nat) (hw : n * 4 / 3 < 2 ^ 31) :
    n < finalizeSize n := by
  obtain ⟨_, _, hgt, _⟩ := finalizeSize_spec n hw
  have : n ≤ n * 4 / 3 := by omega
  omega

theorem foldl_place_length (mask : Nat) :
    ∀ (l : List (Nat × GdbSymbol)) (t : List (Option GdbSymbol)),
      (l.foldl (fun t p => placeSymbol t p.2 mask) t).length = t.length := by
  intro l
  induction l with
  | nil => intro t; rfl
  | cons p l ih =>
    intro t
    rw [List.foldl_cons, ih]
    unfold placeSymbol
    split
    · exact List.length_set t _ _
    · rfl

/-- The slot array built by `finalizeContents` has exactly `finalizeSize`
slots. -/
theorem finalize_table_length (tab : GdbHashTab) :
    tab.finalizeContents.table.length = finalizeSize tab.map.length := by
  unfold GdbHashTab.finalizeContents
  rw [foldl_place_length, List.length_replicate]

/-- C1, counterexample: for 768 entries the claim's conditions are met by
size 1024 (a power of two, `≥ 1024`, and `≥ ⌈768·4/3⌉ = 1024`), yet
`finalizeContents` chooses 2048 slots, so the chosen size is not the
smallest power of two satisfying the claim's two lower bounds. -/
theorem c1_size_counterexample :
    ¬ (∀ m, (∃ k, m = 2 ^ k) → 1024 ≤ m → (768 * 4 + 2) / 3 ≤ m →
        tab768.finalizeContents.table.length ≤ m) := by
  intro h
  have h1024 := h 1024 ⟨10, by norm_num⟩ (by omega) (by norm_num)
  have hlen : tab768.finalizeContents.table.length = 2048 := by
    have := finalize_table_length tab768
    have hn : tab768.map.length = 768 := by
      simp [tab768]
    rw [hn] at this
    rw [this]
    decide
  omega

/-- C1, amended: for every entry count `n` with `n * 4 / 3 < 2 ^ 31` (so
the 32-bit size computation does not wrap), the slot-array size chosen by
`finalizeContents` is the smallest power of two that is both `≥ 1024` and
strictly greater than `n * 4 / 3` (C++ integer division); in particular
for `n = 2000` the size is 4096.  Beyond the wrap bound the `uint32_t`
narrowing collapses the size to 1024. -/
theorem c1_size_amended (tab : GdbHashTab)
    (hw : tab.map.length * 4 / 3 < 2 ^ 31) :
    (∃ k, tab.finalizeContents.table.length = 2 ^ k) ∧
      1024 ≤ tab.finalizeContents.table.length ∧
      tab.map.length * 4 / 3 < tab.finalizeContents.table.length ∧
      (∀ m, (∃ k, m = 2 ^ k) → 1024 ≤ m → tab.map.length * 4 / 3 < m →
        tab.finalizeContents.table.length ≤ m) ∧
      tab2000.finalizeContents.table.length = 4096 := by
  rw [finalize_table_length]
  obtain ⟨hpow, h1024, hgt, hmin⟩ := finalizeSize_spec tab.map.length hw
  refine ⟨hpow, h1024, hgt, hmin, ?_⟩
  rw [finalize_table_length]
  have hn : tab2000.map.length = 2000 := by simp [tab2000]
  rw [hn]
  decide

/-! ## The probe sequence: full cycle and loop termination -/

theorem probeStart_lt (hash s : Nat) : probeStart hash (2 ^ s - 1) < 2 ^ s := by
  rw [probeStart, Nat.and_pow_two_sub_one_eq_mod]
  exact Nat.mod_lt _ (Nat.pos_pow_of_pos s (by omega))

theorem probeStep_odd (hash mask : Nat) : probeStep hash mask % 2 = 1 := by
  rw [probeStep, Nat.or_mod_two_eq_one]
  simp

theorem probeAt_mod (s step : Nat) (i0 : Nat) (hi0 : i0 < 2 ^ s) :
    ∀ k, probeAt i0 step (2 ^ s - 1) k = (i0 + k * step) % 2 ^ s := by
  intro k
  induction k with
  | zero => simp [probeAt, Nat.mod_eq_of_lt hi0]
  | succ n ih =>
    rw [probeAt, probeNext, ih, Nat.and_pow_two_sub_one_eq_mod, Nat.mod_add_mod]
    congr 1
    ring

theorem probeAt_lt (s step : Nat) (i0 : Nat) (hi0 : i0 < 2 ^ s) (k : Nat) :
    probeAt i0 step (2 ^ s - 1) k < 2 ^ s := by
  rw [probeAt_mod s step i0 hi0 k]
  exact Nat.mod_lt _ (Nat.pos_pow_of_pos s (by omega))

theorem probe_inj (s step : Nat) (hstep : step % 2 = 1) (i0 : Nat)
    (hi0 : i0 < 2 ^ s) (k1 k2 : Nat) (h1 : k1 < 2 ^ s) (h2 : k2 < 2 ^ s)
    (heq : probeAt i0 step (2 ^ s - 1) k1 = probeAt i0 step (2 ^ s - 1) k2) :
    k1 = k2 := by
  rw [probeAt_mod s step i0 hi0, probeAt_mod s step i0 hi0] at heq
  have hm : i0 + k1 * step ≡ i0 + k2 * step [MOD 2 ^ s] := heq
  have hmul : k1 * step ≡ k2 * step [MOD 2 ^ s] := Nat.ModEq.add_left_cancel' i0 hm
  have hc : Nat.Coprime step (2 ^ s) :=
    Nat.Coprime.pow_right s (Nat.coprime_two_right.mpr (Nat.odd_iff.mpr hstep))
  have hk : k1 ≡ k2 [MOD 2 ^ s] :=
    Nat.ModEq.cancel_right_of_coprime (Nat.Coprime.symm hc) hmul
  have := hk
  unfold Nat.ModEq at this
  rw [Nat.mod_eq_of_lt h1, Nat.mod_eq_of_lt h2] at this
  exact this

theorem probe_surj (s step : Nat) (hstep : step % 2 = 1) (i0 : Nat)
    (hi0 : i0 < 2 ^ s) (j : Nat) (hj : j < 2 ^ s) :
    ∃ k, k < 2 ^ s ∧ probeAt i0 step (2 ^ s - 1) k = j := by
  let f : Fin (2 ^ s) → Fin (2 ^ s) :=
    fun k => ⟨probeAt i0 step (2 ^ s - 1) k.1, probeAt_lt s step i0 hi0 k.1⟩
  have hinj : Function.Injective f := by
    intro a b hab
    have : probeAt i0 step (2 ^ s - 1) a.1 = probeAt i0 step (2 ^ s - 1) b.1 :=
      congrArg Fin.val hab
    exact Fin.ext (probe_inj s step hstep i0 hi0 a.1 b.1 a.2 b.2 this)
  obtain ⟨k, hk⟩ := Finite.injective_iff_surjective.mp hinj ⟨j, hj⟩
  exact ⟨k.1, k.2, congrArg Fin.val hk⟩

theorem probeAt_succ_front (i step mask : Nat) :
    ∀ k, probeAt i step mask (k + 1) = probeAt (probeNext step mask i) step mask k := by
  intro k
  induction k with
  | zero => rfl
  | succ n ih => rw [probeAt, ih]; rfl

/-- The fueled placement loop returns exactly the first index of the probe
sequence, among the first `fuel` probes, whose slot is empty. -/
theorem findSlot_eq_find? :
    ∀ (fuel : Nat) (t : List (Option GdbSymbol)) (step mask i : Nat),
      findSlot t i step mask fuel =
        ((List.range fuel).find?
            (fun k => (t.getD (probeAt i step mask k) none).isNone)).map
          (probeAt i step mask) := by
  intro fuel
  induction fuel with
  | zero => intro t step mask i; simp [findSlot]
  | succ n ih =>
    intro t step mask i
    have h0 : probeAt i step mask 0 = i := rfl
    cases hx : t.getD i none with
    | none =>
      have hx' : t[i]?.getD none = none := by
        rw [← List.getD_eq_getElem?_getD]; exact hx
      rw [findSlot, List.range_succ_eq_map, List.find?_cons]
      simp [h0, hx, hx']
    | some v =>
      rw [findSlot, List.range_succ_eq_map, List.find?_cons]
      simp only [h0, hx, Option.isNone_some, Option.isSome_some, if_true]
      rw [ih t step mask (probeNext step mask i), List.find?_map, Option.map_map]
      have h1 : (probeAt i step mask ∘ Nat.succ) =
          probeAt (probeNext step mask i) step mask := by
        funext k
        simp [Function.comp, Nat.succ_eq_add_one, probeAt_succ_front]
      have h2 : ((fun k => (t.getD (probeAt i step mask k) none).isNone) ∘ Nat.succ) =
          (fun k => (t.getD (probeAt (probeNext step mask i) step mask k) none).isNone) := by
        funext k
        simp [Function.comp, Nat.succ_eq_add_one, probeAt_succ_front]
      rw [h1, h2]

/-- The fueled loop with fuel `table.length` implements exactly the
specification-side "first empty slot of the probe sequence" placement. -/
theorem placeSymbol_eq_placeFirstEmpty (t : List (Option GdbSymbol))
    (sym : GdbSymbol) (mask : Nat) :
    placeSymbol t sym mask = placeFirstEmpty t sym mask := by
  simp only [placeSymbol, placeFirstEmpty, findSlot_eq_find?]
  cases h : (List.range t.length).find?
      (fun k => (t.getD (probeAt (probeStart sym.nameHash mask)
        (probeStep sym.nameHash mask) mask k) none).isNone) with
  | none => rfl
  | some k => rfl

/-- C2, amended: provided the entry count keeps the 32-bit size
computation from wrapping (`n * 4 / 3 < 2 ^ 31`, which also guarantees
more slots than entries, so the placement loop terminates),
`finalizeContents` processes the entries in the mapping's (insertion)
order and places each at the first empty slot of its probe sequence — the
sequence starting at `hash & (size-1)` with step
`((hash * 17) & (size-1)) | 1`, advancing by `(index + step) & (size-1)`.
`placeFirstEmpty` is the specification-side first-empty-slot placement.
Beyond the wrap bound the claim fails: the table wraps to 1024 slots and
surplus entries are never placed (see the counterexample). -/
theorem c2_placement (tab : GdbHashTab)
    (hw : tab.map.length * 4 / 3 < 2 ^ 31) :
    tab.finalizeContents.table =
      tab.map.foldl
        (fun t p => placeFirstEmpty t p.2 (finalizeSize tab.map.length - 1))
        (List.replicate (finalizeSize tab.map.length) none) := by
  unfold GdbHashTab.finalizeContents
  simp only [placeSymbol_eq_placeFirstEmpty]

/-- Witness for the amended C2 at a one-entry table. -/
theorem c2_placement_witness :
    (⟨[(3, ⟨3, 3⟩)], []⟩ : GdbHashTab).map.length * 4 / 3 < 2 ^ 31 ∧
      (⟨[(3, ⟨3, 3⟩)], []⟩ : GdbHashTab).finalizeContents.table =
        (⟨[(3, ⟨3, 3⟩)], []⟩ : GdbHashTab).map.foldl
          (fun t p => placeFirstEmpty t p.2
            (finalizeSize (⟨[(3, ⟨3, 3⟩)], []⟩ : GdbHashTab).map.length - 1))
          (List.replicate
            (finalizeSize (⟨[(3, ⟨3, 3⟩)], []⟩ : GdbHashTab).map.length)
            none) :=
  ⟨by decide, c2_placement ⟨[(3, ⟨3, 3⟩)], []⟩ (by decide)⟩

/-- A duplicate-free list that injects into another list is no longer than
it (pigeonhole, via `Finset` cardinalities). -/
theorem length_le_of_nodup_subset {α : Type} [DecidableEq α]
    {l₁ l₂ : List α} (h₁ : l₁.Nodup) (hsub : l₁ ⊆ l₂) :
    l₁.length ≤ l₂.length := by
  calc l₁.length = l₁.toFinset.card := (List.toFinset_card_of_nodup h₁).symm
    _ ≤ l₂.toFinset.card := Finset.card_le_card (fun a ha =>
        List.mem_toFinset.mpr (hsub (List.mem_toFinset.mp ha)))
    _ ≤ l₂.length := l₂.toFinset_card_le

theorem mkRangeTab_map_length (n : Nat) : (mkRangeTab n).map.length = n := by
  simp [mkRangeTab]

theorem mkRangeTab_syms (n : Nat) :
    (mkRangeTab n).map.map Prod.snd =
      (List.range n).map (fun i => (⟨i, i⟩ : GdbSymbol)) := by
  unfold mkRangeTab
  rw [List.map_map]
  exact List.map_congr_left fun a _ => rfl

/-- C2, counterexample: at `3 · 2 ^ 29` entries the 32-bit size wraps to
1024 slots, so it cannot be that every recorded entry is placed at a slot
of its probe sequence — there are over `2 ^ 30` entries and only 1024
slots (the C++ loop, for its part, never returns once they fill). -/
theorem c2_placement_counterexample :
    tabBig.map.length = 1610612736 ∧
      tabBig.finalizeContents.table.length = 1024 ∧
      ¬ (∀ p ∈ tabBig.map, some p.2 ∈ tabBig.finalizeContents.table) := by
  have hn : tabBig.map.length = 1610612736 := mkRangeTab_map_length 1610612736
  have hlen : tabBig.finalizeContents.table.length = 1024 := by
    rw [finalize_table_length, hn]
    decide
  refine ⟨hn, hlen, ?_⟩
  intro hall
  have hsyms : tabBig.map.map Prod.snd =
      (List.range 1610612736).map (fun i => (⟨i, i⟩ : GdbSymbol)) :=
    mkRangeTab_syms 1610612736
  have hinj : Function.Injective
      (fun i => some (⟨i, i⟩ : GdbSymbol)) := by
    intro a b hab
    simpa using hab
  have hnodup : ((tabBig.map.map Prod.snd).map some).Nodup := by
    rw [hsyms, List.map_map]
    exact List.Nodup.map hinj (List.nodup_range _)
  have hsub : (tabBig.map.map Prod.snd).map some ⊆
      tabBig.finalizeContents.table := by
    intro x hx
    obtain ⟨sym, hsymmem, rfl⟩ := List.mem_map.mp hx
    obtain ⟨p, hp, rfl⟩ := List.mem_map.mp hsymmem
    exact hall p hp
  have hle := length_le_of_nodup_subset hnodup hsub
  rw [hlen] at hle
  have hl1 : ((tabBig.map.map Prod.snd).map some).length = 1610612736 := by
    rw [hsyms]
    simp
  omega

/-- C3: over a power-of-two-sized table, the probe sequence of any hash
visits `size` pairwise-distinct slots (first conjunct), and consequently
the placement loop, fueled with `size` probes, succeeds whenever some slot
is still empty — load factor below 100% (second conjunct). -/
theorem c3_full_cycle (hash s : Nat) (t : List (Option GdbSymbol))
    (ht : t.length = 2 ^ s)
    (hempty : ∃ i, i < 2 ^ s ∧ t.getD i none = none) :
    (∀ k1, k1 < 2 ^ s → ∀ k2, k2 < 2 ^ s →
        probeAt (probeStart hash (2 ^ s - 1)) (probeStep hash (2 ^ s - 1))
            (2 ^ s - 1) k1 =
          probeAt (probeStart hash (2 ^ s - 1)) (probeStep hash (2 ^ s - 1))
            (2 ^ s - 1) k2 →
        k1 = k2) ∧
      (findSlot t (probeStart hash (2 ^ s - 1)) (probeStep hash (2 ^ s - 1))
          (2 ^ s - 1) (2 ^ s)).isSome = true := by
  constructor
  · intro k1 hk1 k2 hk2 heq
    exact probe_inj s _ (probeStep_odd hash _) _ (probeStart_lt hash s)
      k1 k2 hk1 hk2 heq
  · obtain ⟨j, hj, hjnone⟩ := hempty
    obtain ⟨k, hk, hkeq⟩ :=
      probe_surj s (probeStep hash (2 ^ s - 1))
        (probeStep_odd hash (2 ^ s - 1)) (probeStart hash (2 ^ s - 1))
        (probeStart_lt hash s) j hj
    have hfind : ((List.range (2 ^ s)).find?
        (fun k => (t.getD (probeAt (probeStart hash (2 ^ s - 1))
          (probeStep hash (2 ^ s - 1)) (2 ^ s - 1) k) none).isNone)).isSome = true := by
      rw [List.find?_isSome]
      exact ⟨k, List.mem_range.mpr hk, by rw [hkeq, hjnone]; rfl⟩
    rw [findSlot_eq_find?]
    obtain ⟨k', hk'⟩ := Option.isSome_iff_exists.mp hfind
    rw [hk']
    rfl

/-- Witness for C3 at hash 5, size `2 ^ 2`, on an all-empty table. -/
theorem c3_full_cycle_witness :
    ([none, none, none, none] : List (Option GdbSymbol)).length = 2 ^ 2 ∧
      (∃ i, i < 2 ^ 2 ∧
        ([none, none, none, none] : List (Option GdbSymbol)).getD i none = none) ∧
      ((∀ k1, k1 < 2 ^ 2 → ∀ k2, k2 < 2 ^ 2 →
          probeAt (probeStart 5 (2 ^ 2 - 1)) (probeStep 5 (2 ^ 2 - 1))
              (2 ^ 2 - 1) k1 =
            probeAt (probeStart 5 (2 ^ 2 - 1)) (probeStep 5 (2 ^ 2 - 1))
              (2 ^ 2 - 1) k2 →
          k1 = k2) ∧
        (findSlot [none, none, none, none] (probeStart 5 (2 ^ 2 - 1))
            (probeStep 5 (2 ^ 2 - 1)) (2 ^ 2 - 1) (2 ^ 2)).isSome = true) :=
  ⟨by decide, ⟨0, by decide, by decide⟩,
    c3_full_cycle 5 2 [none, none, none, none] (by decide)
      ⟨0, by decide, by decide⟩⟩

/-! ## Occupancy accounting for `finalizeContents` (claim C8) -/

theorem count_set_of_getD_none :
    ∀ (t : List (Option GdbSymbol)) (j : Nat), j < t.length →
      t.getD j none = none → ∀ (v w : Option GdbSymbol),
      (t.set j v).count w + (if w = none then 1 else 0) =
        t.count w + (if w = v then 1 else 0) := by
  intro t
  induction t with
  | nil => intro j hj; simp at hj
  | cons a t ih =>
    intro j hj hget v w
    cases j with
    | zero =>
      have ha : a = none := by simpa using hget
      subst ha
      rw [List.set_cons_zero]
      by_cases h1 : w = v
      · subst h1
        by_cases h2 : w = none
        · subst h2
          simp
        · simp [List.count_cons, h2]
      · by_cases h2 : w = none
        · subst h2
          have hv : ¬ v = none := fun hh => h1 hh.symm
          simp [List.count_cons, h1, hv]
        · simp [List.count_cons, h1, h2]
    | succ j =>
      have hj' : j < t.length := by simpa using hj
      have hget' : t.getD j none = none := by simpa using hget
      have hrec := ih j hj' hget' v w
      rw [List.set_cons_succ, List.count_cons, List.count_cons]
      omega

theorem placeSymbol_set_of_empty (s : Nat) (t : List (Option GdbSymbol))
    (sym : GdbSymbol) (ht : t.length = 2 ^ s) (hempty : 0 < t.count none) :
    ∃ j, j < t.length ∧ t.getD j none = none ∧
      placeSymbol t sym (2 ^ s - 1) = t.set j (some sym) := by
  have hmem : (none : Option GdbSymbol) ∈ t := List.count_pos_iff.mp hempty
  obtain ⟨i, hi, hti⟩ := List.mem_iff_getElem.mp hmem
  have hgd : t.getD i none = none := by
    rw [List.getD_eq_getElem t none hi, hti]
  have hi2 : i < 2 ^ s := ht ▸ hi
  obtain ⟨k, hk, hkeq⟩ :=
    probe_surj s (probeStep sym.nameHash (2 ^ s - 1))
      (probeStep_odd sym.nameHash (2 ^ s - 1))
      (probeStart sym.nameHash (2 ^ s - 1))
      (probeStart_lt sym.nameHash s) i hi2
  have hfind : ((List.range (2 ^ s)).find?
      (fun k => (t.getD (probeAt (probeStart sym.nameHash (2 ^ s - 1))
        (probeStep sym.nameHash (2 ^ s - 1)) (2 ^ s - 1) k)
          none).isNone)).isSome = true := by
    rw [List.find?_isSome]
    exact ⟨k, List.mem_range.mpr hk, by rw [hkeq, hgd]; rfl⟩
  obtain ⟨k', hk'⟩ := Option.isSome_iff_exists.mp hfind
  have hpk' := List.find?_some hk'
  refine ⟨probeAt (probeStart sym.nameHash (2 ^ s - 1))
      (probeStep sym.nameHash (2 ^ s - 1)) (2 ^ s - 1) k', ?_, ?_, ?_⟩
  · rw [ht]
    exact probeAt_lt s _ _ (probeStart_lt sym.nameHash s) k'
  · exact Option.isNone_iff_eq_none.mp hpk'
  · simp only [placeSymbol, findSlot_eq_find?]
    rw [ht, hk']
    rfl

/-- Accounting invariant for the placement fold: starting from a
power-of-two-sized table with enough empty slots, placing a duplicate-free
batch of fresh symbols keeps the length, consumes one empty slot per
symbol, gives every placed symbol exactly one slot, and leaves every other
occupancy count unchanged. -/
theorem foldl_place_invariant (s : Nat) :
    ∀ (syms : List GdbSymbol) (t : List (Option GdbSymbol)),
      t.length = 2 ^ s → syms.Nodup →
      (∀ sym ∈ syms, t.count (some sym) = 0) →
      syms.length ≤ t.count none →
      (syms.foldl (fun acc sym => placeSymbol acc sym (2 ^ s - 1)) t).length
          = 2 ^ s ∧
        (syms.foldl (fun acc sym => placeSymbol acc sym (2 ^ s - 1)) t).count
            none + syms.length = t.count none ∧
        (∀ sym ∈ syms,
          (syms.foldl (fun acc sym => placeSymbol acc sym (2 ^ s - 1))
            t).count (some sym) = 1) ∧
        (∀ w : Option GdbSymbol, w ≠ none → (∀ sym ∈ syms, w ≠ some sym) →
          (syms.foldl (fun acc sym => placeSymbol acc sym (2 ^ s - 1))
            t).count w = t.count w) := by
  intro syms
  induction syms with
  | nil =>
    intro t ht _ _ _
    exact ⟨ht, by simp, by simp, fun w _ _ => rfl⟩
  | cons sym syms ih =>
    intro t ht hnodup hzero hle
    have hlen_cons : (sym :: syms).length = syms.length + 1 := rfl
    have hempty : 0 < t.count none := by omega
    obtain ⟨j, hj, hjnone, hplace⟩ := placeSymbol_set_of_empty s t sym ht hempty
    have hcount := count_set_of_getD_none t j hj hjnone (some sym)
    have hcn : (t.set j (some sym)).count none + 1 = t.count none := by
      have h := hcount none
      simpa using h
    have hcs : (t.set j (some sym)).count (some sym) =
        t.count (some sym) + 1 := by
      have h := hcount (some sym)
      simpa using h
    have hother : ∀ w : Option GdbSymbol, w ≠ none → w ≠ some sym →
        (t.set j (some sym)).count w = t.count w := by
      intro w h1 h2
      have h := hcount w
      simpa [h1, h2] using h
    have hnd : syms.Nodup := (List.nodup_cons.mp hnodup).2
    have hnotmem : sym ∉ syms := (List.nodup_cons.mp hnodup).1
    have hlen' : (t.set j (some sym)).length = 2 ^ s := by
      rw [List.length_set]; exact ht
    have hzero' : ∀ x ∈ syms, (t.set j (some sym)).count (some x) = 0 := by
      intro x hx
      have hxne : (some x : Option GdbSymbol) ≠ some sym := by
        intro hEq
        exact hnotmem (by rwa [Option.some_inj.mp hEq] at hx)
      rw [hother (some x) (by simp) hxne]
      exact hzero x (List.mem_cons_of_mem _ hx)
    have hle' : syms.length ≤ (t.set j (some sym)).count none := by omega
    obtain ⟨IH1, IH2, IH3, IH4⟩ := ih (t.set j (some sym)) hlen' hnd hzero' hle'
    rw [List.foldl_cons, hplace]
    refine ⟨IH1, by omega, ?_, ?_⟩
    · intro x hx
      rcases List.mem_cons.mp hx with hEq | hmem'
      · subst hEq
        rw [IH4 (some x) (by simp)
          (fun y hy hEq => hnotmem (by rwa [← Option.some_inj.mp hEq] at hy))]
        rw [hcs, hzero x (List.mem_cons_self x syms)]
      · exact IH3 x hmem'
    · intro w h1 h2
      rw [IH4 w h1 (fun y hy => h2 y (List.mem_cons_of_mem _ hy))]
      exact hother w h1 (h2 sym (List.mem_cons_self sym syms))

theorem lookup_eq_none_iff :
    ∀ (l : List (Nat × GdbSymbol)) (k : Nat),
      l.lookup k = none ↔ k ∉ l.map Prod.fst := by
  intro l
  induction l with
  | nil => intro k; simp [List.lookup]
  | cons a l ih =>
    intro k
    rw [List.lookup]
    by_cases h : k = a.1
    · simp [h]
    · have hb : (k == a.1) = false := by simpa using h
      rw [hb]
      simp [ih, h]

/-- Every table reachable by `add` calls has pairwise-distinct keys, and
every entry's identity key equals the key it is filed under. -/
theorem addAll_fold_invariant :
    ∀ (calls : List (Nat × Nat)) (tab : GdbHashTab),
      (tab.map.map Prod.fst).Nodup → (∀ p ∈ tab.map, p.2.offset = p.1) →
      ((calls.foldl (fun t c => (t.add c.1 c.2).2) tab).map.map
          Prod.fst).Nodup ∧
        (∀ p ∈ (calls.foldl (fun t c => (t.add c.1 c.2).2) tab).map,
          p.2.offset = p.1) := by
  intro calls
  induction calls with
  | nil => intro tab h1 h2; exact ⟨h1, h2⟩
  | cons c calls ih =>
    intro tab h1 h2
    rw [List.foldl_cons]
    cases h : tab.map.lookup c.2 with
    | some sym =>
      have hadd : (tab.add c.1 c.2).2 = tab := by
        unfold GdbHashTab.add
        rw [h]
      rw [hadd]
      exact ih tab h1 h2
    | none =>
      have hadd : (tab.add c.1 c.2).2 =
          { tab with map := tab.map ++ [(c.2, ⟨c.1, c.2⟩)] } := by
        unfold GdbHashTab.add
        rw [h]
      rw [hadd]
      refine ih _ ?_ ?_
      · rw [List.map_append]
        rw [List.nodup_append]
        refine ⟨h1, by simp, ?_⟩
        intro a ha hb
        have : a = c.2 := by simpa using hb
        subst this
        exact (lookup_eq_none_iff tab.map c.2).mp h ha
      · intro p hp
        rcases List.mem_append.mp hp with hl | hr
        · exact h2 p hl
        · have : p = (c.2, ⟨c.1, c.2⟩) := by simpa using hr
          subst this
          rfl

theorem addAll_invariant (calls : List (Nat × Nat)) :
    (((GdbHashTab.addAll calls).map.map Prod.fst).Nodup ∧
      ∀ p ∈ (GdbHashTab.addAll calls).map, p.2.offset = p.1) := by
  exact addAll_fold_invariant calls GdbHashTab.empty (by simp [GdbHashTab.empty])
    (by simp [GdbHashTab.empty])

/-- Occupancy after `finalizeContents` on any table whose keys are
pairwise distinct and file entries under their own identity key. -/
theorem finalize_count_of_invariants (tab : GdbHashTab)
    (hw : tab.map.length * 4 / 3 < 2 ^ 31)
    (hnodup : (tab.map.map Prod.fst).Nodup)
    (hoff : ∀ p ∈ tab.map, p.2.offset = p.1) :
    (∀ p ∈ tab.map, tab.finalizeContents.table.count (some p.2) = 1) ∧
      tab.finalizeContents.table.count none + tab.map.length =
        tab.finalizeContents.table.length := by
  obtain ⟨s, hs⟩ := (finalizeSize_spec tab.map.length hw).1
  have hsymsnodup : (tab.map.map Prod.snd).Nodup := by
    have hmapeq : tab.map.map Prod.fst =
        (tab.map.map Prod.snd).map GdbSymbol.offset := by
      rw [List.map_map]
      exact List.map_congr_left (fun p hp => (hoff p hp).symm)
    exact List.Nodup.of_map GdbSymbol.offset (hmapeq ▸ hnodup)
  have hfold : tab.finalizeContents.table =
      (tab.map.map Prod.snd).foldl
        (fun acc sym => placeSymbol acc sym (2 ^ s - 1))
        (List.replicate (2 ^ s) none) := by
    unfold GdbHashTab.finalizeContents
    rw [hs, List.foldl_map]
  have hn : tab.map.length < 2 ^ s := hs ▸ lt_finalizeSize tab.map.length hw
  have hinit_len : (List.replicate (2 ^ s) (none : Option GdbSymbol)).length
      = 2 ^ s := List.length_replicate _ _
  have hinit_none : (List.replicate (2 ^ s) (none : Option GdbSymbol)).count
      none = 2 ^ s := by simp [List.count_replicate]
  have hinit_some : ∀ sym ∈ tab.map.map Prod.snd,
      (List.replicate (2 ^ s) (none : Option GdbSymbol)).count (some sym)
        = 0 := by
    intro sym _
    simp [List.count_replicate]
  have hle : (tab.map.map Prod.snd).length ≤
      (List.replicate (2 ^ s) (none : Option GdbSymbol)).count none := by
    rw [hinit_none, List.length_map]
    omega
  obtain ⟨IH1, IH2, IH3, IH4⟩ :=
    foldl_place_invariant s (tab.map.map Prod.snd)
      (List.replicate (2 ^ s) none) hinit_len hsymsnodup hinit_some hle
  constructor
  · intro p hp
    rw [hfold]
    exact IH3 p.2 (List.mem_map_of_mem Prod.snd hp)
  · rw [hfold, IH1]
    rw [List.length_map] at IH2
    omega

/-- C8, amended: provided the entry count `n` keeps the 32-bit size
computation from wrapping (`n * 4 / 3 < 2 ^ 31`), after `finalizeContents`
the slot array is a power of two in length, at least 1024 and at least
`⌈4/3 · n⌉` long; every entry recorded by `add` occupies exactly one slot
(occupancy count 1), and the remaining slots are exactly the empty ones,
so no two entries share a slot.  Beyond the wrap bound the real table has
only 1024 slots and the placement loop never completes (see the
counterexample). -/
theorem c8_finalize_invariant (calls : List (Nat × Nat))
    (hw : (GdbHashTab.addAll calls).map.length * 4 / 3 < 2 ^ 31) :
    (∃ k, (GdbHashTab.addAll calls).finalizeContents.table.length = 2 ^ k) ∧
      1024 ≤ (GdbHashTab.addAll calls).finalizeContents.table.length ∧
      ((GdbHashTab.addAll calls).map.length * 4 + 2) / 3 ≤
        (GdbHashTab.addAll calls).finalizeContents.table.length ∧
      (∀ p ∈ (GdbHashTab.addAll calls).map,
        (GdbHashTab.addAll calls).finalizeContents.table.count (some p.2)
          = 1) ∧
      (GdbHashTab.addAll calls).finalizeContents.table.count none +
          (GdbHashTab.addAll calls).map.length =
        (GdbHashTab.addAll calls).finalizeContents.table.length := by
  obtain ⟨hnodup, hoff⟩ := addAll_invariant calls
  obtain ⟨hcount, hnone⟩ :=
    finalize_count_of_invariants (GdbHashTab.addAll calls) hw hnodup hoff
  obtain ⟨⟨k, hk⟩, h1024, hgt, _⟩ :=
    finalizeSize_spec (GdbHashTab.addAll calls).map.length hw
  rw [finalize_table_length]
  exact ⟨⟨k, hk⟩, h1024, by omega, hcount, by rw [← finalize_table_length]; exact hnone⟩

/-- Witness for C8 on a concrete two-call sequence. -/
theorem c8_finalize_invariant_witness :
    (GdbHashTab.addAll [(1, 10), (2, 20)]).map.length * 4 / 3 < 2 ^ 31 ∧
      (∃ k, (GdbHashTab.addAll [(1, 10), (2, 20)]).finalizeContents.table.length
        = 2 ^ k) ∧
      1024 ≤ (GdbHashTab.addAll [(1, 10), (2, 20)]).finalizeContents.table.length ∧
      ((GdbHashTab.addAll [(1, 10), (2, 20)]).map.length * 4 + 2) / 3 ≤
        (GdbHashTab.addAll [(1, 10), (2, 20)]).finalizeContents.table.length ∧
      (∀ p ∈ (GdbHashTab.addAll [(1, 10), (2, 20)]).map,
        (GdbHashTab.addAll [(1, 10), (2, 20)]).finalizeContents.table.count
          (some p.2) = 1) ∧
      (GdbHashTab.addAll [(1, 10), (2, 20)]).finalizeContents.table.count none +
          (GdbHashTab.addAll [(1, 10), (2, 20)]).map.length =
        (GdbHashTab.addAll [(1, 10), (2, 20)]).finalizeContents.table.length :=
  ⟨by decide, c8_finalize_invariant [(1, 10), (2, 20)] (by decide)⟩

theorem fold_add_mem_keys :
    ∀ (calls : List (Nat × Nat)) (tab : GdbHashTab) (k : Nat),
      (k ∈ (calls.foldl (fun t c => (t.add c.1 c.2).2) tab).map.map Prod.fst) ↔
        (k ∈ tab.map.map Prod.fst ∨ k ∈ calls.map Prod.snd) := by
  intro calls
  induction calls with
  | nil => intro tab k; simp
  | cons c calls ih =>
    intro tab k
    rw [List.foldl_cons]
    cases h : tab.map.lookup c.2 with
    | some sym =>
      have hadd : (tab.add c.1 c.2).2 = tab := by
        unfold GdbHashTab.add
        rw [h]
      rw [hadd, ih]
      have hmem : c.2 ∈ tab.map.map Prod.fst := by
        by_contra hc
        rw [← lookup_eq_none_iff] at hc
        rw [h] at hc
        cases hc
      constructor
      · rintro (h1 | h2)
        · exact Or.inl h1
        · refine Or.inr ?_
          rw [List.map_cons]
          exact List.mem_cons_of_mem _ h2
      · rintro (h1 | h2)
        · exact Or.inl h1
        · rw [List.map_cons] at h2
          rcases List.mem_cons.mp h2 with hEq | hmem'
          · exact Or.inl (hEq ▸ hmem)
          · exact Or.inr hmem'
    | none =>
      have hadd : (tab.add c.1 c.2).2 =
          { tab with map := tab.map ++ [(c.2, ⟨c.1, c.2⟩)] } := by
        unfold GdbHashTab.add
        rw [h]
      rw [hadd, ih]
      simp [or_assoc, List.mem_append]

/-- The number of entries after a whole sequence of `add` calls equals the
number of distinct keys used. -/
theorem addAll_map_length (calls : List (Nat × Nat)) :
    (GdbHashTab.addAll calls).map.length = (calls.map Prod.snd).dedup.length := by
  have hnodup := (addAll_invariant calls).1
  have hmem : ∀ k, k ∈ (GdbHashTab.addAll calls).map.map Prod.fst ↔
      k ∈ (calls.map Prod.snd).dedup := by
    intro k
    rw [List.mem_dedup]
    have := fold_add_mem_keys calls GdbHashTab.empty k
    unfold GdbHashTab.addAll
    rw [this]
    simp [GdbHashTab.empty]
  have hperm := (List.perm_ext_iff_of_nodup hnodup
    (List.nodup_dedup (calls.map Prod.snd))).mpr hmem
  have := hperm.length_eq
  rwa [List.length_map] at this

theorem mkRangeCalls_snd (n : Nat) :
    (mkRangeCalls n).map Prod.snd = List.range n := by
  unfold mkRangeCalls
  rw [List.map_map]
  calc (List.range n).map (Prod.snd ∘ fun i => ((i, i) : Nat × Nat))
      = (List.range n).map (fun a => a) := List.map_congr_left fun a _ => rfl
    _ = List.range n := List.map_id' _

/-- C8, counterexample: at `3 · 2 ^ 29` distinct keys the 32-bit size
computation wraps and the slot array has only 1024 slots — far below
`⌈4/3 · entryCount⌉` — so the claimed size invariant (and with it
one-slot-per-entry) fails; the C++ placement loop never even returns at
this entry count. -/
theorem c8_finalize_invariant_counterexample :
    (GdbHashTab.addAll callsBig).map.length = 1610612736 ∧
      (GdbHashTab.addAll callsBig).finalizeContents.table.length = 1024 ∧
      ¬ (((GdbHashTab.addAll callsBig).map.length * 4 + 2) / 3 ≤
          (GdbHashTab.addAll callsBig).finalizeContents.table.length) := by
  have hn : (GdbHashTab.addAll callsBig).map.length = 1610612736 := by
    rw [addAll_map_length, show callsBig = mkRangeCalls 1610612736 from rfl,
      mkRangeCalls_snd, List.dedup_eq_self.mpr (List.nodup_range _),
      List.length_range]
  have hlen : (GdbHashTab.addAll callsBig).finalizeContents.table.length
      = 1024 := by
    rw [finalize_table_length, hn]
    decide
  refine ⟨hn, hlen, ?_⟩
  rw [hn, hlen]
  decide

/-- C4: the number of recorded entries equals the number of distinct keys
used across a whole sequence of `add` calls; a repeated key returns
`(false, existingEntry)` and changes nothing (so the stored hash survives
no matter which hash is supplied), while a fresh key creates and returns a
new entry carrying the supplied hash and key. -/
theorem c4_add_dedup (calls : List (Nat × Nat)) (hash key : Nat) :
    (GdbHashTab.addAll calls).map.length = (calls.map Prod.snd).dedup.length ∧
      (∀ sym, (GdbHashTab.addAll calls).map.lookup key = some sym →
        (GdbHashTab.addAll calls).add hash key =
          ((false, sym), GdbHashTab.addAll calls)) ∧
      ((GdbHashTab.addAll calls).map.lookup key = none →
        (GdbHashTab.addAll calls).add hash key =
          ((true, ⟨hash, key⟩),
            { GdbHashTab.addAll calls with
              map := (GdbHashTab.addAll calls).map ++ [(key, ⟨hash, key⟩)] })) := by
  refine ⟨addAll_map_length calls, ?_, ?_⟩
  · intro sym hsym
    unfold GdbHashTab.add
    rw [hsym]
  · intro hnone
    unfold GdbHashTab.add
    rw [hnone]

/-- Witness for C4 on the call sequence `[(5, 7), (6, 7)]` (a repeated
key with two different hashes) queried at hash 9, key 7. -/
theorem c4_add_dedup_witness :
    (GdbHashTab.addAll [(5, 7), (6, 7)]).map.length =
        (([(5, 7), (6, 7)] : List (Nat × Nat)).map Prod.snd).dedup.length ∧
      (∀ sym, (GdbHashTab.addAll [(5, 7), (6, 7)]).map.lookup 7 = some sym →
        (GdbHashTab.addAll [(5, 7), (6, 7)]).add 9 7 =
          ((false, sym), GdbHashTab.addAll [(5, 7), (6, 7)])) ∧
      ((GdbHashTab.addAll [(5, 7), (6, 7)]).map.lookup 7 = none →
        (GdbHashTab.addAll [(5, 7), (6, 7)]).add 9 7 =
          ((true, ⟨9, 7⟩),
            { GdbHashTab.addAll [(5, 7), (6, 7)] with
              map := (GdbHashTab.addAll [(5, 7), (6, 7)]).map ++
                [(7, ⟨9, 7⟩)] })) :=
  c4_add_dedup [(5, 7), (6, 7)] 9 7

theorem fold_skip_none_eq_reduceOption :
    ∀ (l : List (Option InputSectionData)) (st : LLDDwarfObj),
      l.foldl
          (fun st os =>
            match os with
            | none => st
            | some sec => classifySection st sec)
          st =
        l.reduceOption.foldl classifySection st := by
  intro l
  induction l with
  | nil => intro st; rfl
  | cons a l ih =>
    intro st
    cases a with
    | none => simp [List.reduceOption, ih, List.filterMap_cons]
    | some sec => simp [List.reduceOption, ih, List.filterMap_cons]

/-- C9: the constructor skips null (absent) section-list entries without
classifying them and without failing — it is a total function — and the
result is exactly the classification of the section list with the null
entries removed. -/
theorem c9_null_sections_skipped (file : ObjFile) :
    mkLLDDwarfObj file =
      file.sections.reduceOption.foldl classifySection (initDwarfObj file) := by
  unfold mkLLDDwarfObj
  exact fold_skip_none_eq_reduceOption file.sections (initDwarfObj file)

/-! ## Relocation lookup and resolution -/

theorem findAux_eq_none_iff {R : Type} (file : ObjFile) (pos : Nat)
    (offsetOf symOf : R → Nat) (addendOf : R → Int) (rels : List R) :
    findAux file pos offsetOf symOf addendOf rels = none ↔
      ∀ r ∈ rels, offsetOf r ≠ pos := by
  unfold findAux
  cases h : rels.find? (fun r => offsetOf r == pos) with
  | none =>
    constructor
    · intro _ r hr
      have := List.find?_eq_none.mp h r hr
      simpa using this
    · intro _
      rfl
  | some rel =>
    constructor
    · intro hc
      exact Option.noConfusion hc
    · intro hall
      have hmem := List.mem_of_find?_eq_some h
      have hp := List.find?_some h
      have hoff : offsetOf rel = pos := by simpa using hp
      exact absurd hoff (hall rel hmem)

/-- C6: `find` returns the empty ("no relocation") result exactly when no
record of the section's active relocation list has source offset equal to
the queried position.  The result is an ordinary `Option` value, not an
error: `find` is total. -/
theorem c6_no_reloc_none (d : LLDDwarfObj) (data : List Nat)
    (sec : InputSectionData) (pos : Nat) :
    d.find ⟨data, some sec⟩ pos = none ↔ pos ∉ relocOffsets sec := by
  simp only [LLDDwarfObj.find, Option.getD_some, relocOffsets]
  by_cases harel : sec.areRelocsRela = true
  · rw [if_pos harel, if_pos harel, findAux_eq_none_iff]
    simp [List.mem_map]
  · rw [if_neg harel, if_neg harel, findAux_eq_none_iff]
    simp [List.mem_map]

/-- Witness for C6: a section with a single relocation at offset `0x20`
queried at position `0x10`. -/
theorem c6_no_reloc_none_witness :
    (16 ∉ relocOffsets ⟨".debug_info", [], false, 0, true, [⟨32, 0, 0⟩], []⟩) ∧
      (LLDDwarfObj.find
          ⟨⟨[], []⟩, ⟨[], none⟩, ⟨[], none⟩, ⟨[], none⟩, [], [], []⟩
          ⟨[], some ⟨".debug_info", [], false, 0, true, [⟨32, 0, 0⟩], []⟩⟩
          16 = none) :=
  ⟨by decide,
    (c6_no_reloc_none ⟨⟨[], []⟩, ⟨[], none⟩, ⟨[], none⟩, ⟨[], none⟩, [], [], []⟩
      [] ⟨".debug_info", [], false, 0, true, [⟨32, 0, 0⟩], []⟩ 16).mpr
      (by decide)⟩

/-- C5: when `find` locates a relocation at the queried position whose
referenced symbol is a locally defined, section-relative symbol, it
returns the defining section's index within the object's section table
together with `symbolValue + addend`, further increased by the defining
section's output-file offset exactly when that section is loadable
(`SHF_ALLOC`).  Stated for the addend-explicit form; the addend-implicit
form then agrees by claim C7.  The two overflow-freedom hypotheses let the
64-bit value be written as a plain sum. -/
theorem c5_resolution (d : LLDDwarfObj) (data : List Nat)
    (sec : InputSectionData) (pos : Nat) (r : ElfRela) (sym : DefinedRegular)
    (defSec : InputSectionData)
    (harel : sec.areRelocsRela = true)
    (hfind : sec.relas.find? (fun x => x.r_offset == pos) = some r)
    (hsym : d.obj.symbols.getD r.symIndex ⟨0, 0⟩ = sym)
    (hdefsec : (d.obj.sections.getD sym.secIndex none).getD emptyInputSection
      = defSec)
    (haddend : 0 ≤ r.r_addend)
    (hsmall : sym.value + r.r_addend.toNat + defSec.offsetInFile < 2 ^ 64) :
    d.find ⟨data, some sec⟩ pos =
      some ⟨sym.secIndex,
        sym.value + r.r_addend.toNat +
          (if defSec.shf_alloc then defSec.offsetInFile else 0)⟩ := by
  simp only [LLDDwarfObj.find, Option.getD_some]
  rw [if_pos harel]
  unfold findAux
  rw [hfind]
  simp only [resolveReloc, getAddendRela]
  rw [hsym, hdefsec]
  have hv : ((sym.value : Int) + r.r_addend) % 2 ^ 64 =
      (sym.value : Int) + r.r_addend := by
    apply Int.emod_eq_of_lt
    · omega
    · omega
  rw [hv]
  have ht : ((sym.value : Int) + r.r_addend).toNat =
      sym.value + r.r_addend.toNat := by omega
  rw [ht]
  by_cases halloc : defSec.shf_alloc = true
  · rw [if_pos halloc, if_pos halloc, Nat.mod_eq_of_lt hsmall]
  · rw [if_neg halloc, if_neg halloc, Nat.add_zero]

/-- Witness for C5: value `0x400000`, addend 4, loadable defining section
at output offset `0x1000` resolves to `0x401004`; with a non-loadable
defining section the same inputs resolve to `0x400004`. -/
theorem c5_resolution_witness :
    (secC5a.areRelocsRela = true ∧
      secC5a.relas.find? (fun x => x.r_offset == 16) = some ⟨16, 0, 4⟩ ∧
      dC5.obj.symbols.getD 0 ⟨0, 0⟩ = (⟨4194304, 0⟩ : DefinedRegular) ∧
      (dC5.obj.sections.getD 0 none).getD emptyInputSection =
        (⟨".text", [], true, 4096, true, [], []⟩ : InputSectionData) ∧
      (0 : Int) ≤ 4 ∧
      4194304 + (4 : Int).toNat + 4096 < 2 ^ 64 ∧
      dC5.find ⟨[], some secC5a⟩ 16 = some ⟨0, 4198404⟩) ∧
      dC5.find ⟨[], some secC5b⟩ 16 = some ⟨1, 4194308⟩ := by
  refine ⟨⟨rfl, rfl, rfl, rfl, by decide, by decide, ?_⟩, ?_⟩
  · simpa using c5_resolution dC5 [] secC5a 16 ⟨16, 0, 4⟩ ⟨4194304, 0⟩
      ⟨".text", [], true, 4096, true, [], []⟩ rfl rfl rfl rfl
      (by decide) (by decide)
  · simpa using c5_resolution dC5 [] secC5b 16 ⟨16, 1, 4⟩ ⟨4194304, 1⟩
      ⟨".data", [], false, 4096, true, [], []⟩ rfl rfl rfl rfl
      (by decide) (by decide)

/-- C7: an addend-explicit relocation and an addend-implicit relocation at
the same offset, referencing the same symbol and carrying the same
effective addend, resolve to identical values. -/
theorem c7_addend_equivalence (d : LLDDwarfObj) (dataA dataB : List Nat)
    (secA secB : InputSectionData) (pos : Nat) (ra : ElfRela) (rl : ElfRel)
    (hA : secA.areRelocsRela = true) (hB : secB.areRelocsRela = false)
    (hfa : secA.relas.find? (fun x => x.r_offset == pos) = some ra)
    (hfb : secB.rels.find? (fun x => x.r_offset == pos) = some rl)
    (hsym : ra.symIndex = rl.symIndex)
    (haddend : getAddendRela ra = getAddendRel rl) :
    d.find ⟨dataA, some secA⟩ pos = d.find ⟨dataB, some secB⟩ pos := by
  simp only [LLDDwarfObj.find, Option.getD_some]
  rw [if_pos hA, if_neg (by simp [hB])]
  unfold findAux
  rw [hfa, hfb]
  show some (resolveReloc d.obj ra.symIndex (getAddendRela ra)) =
    some (resolveReloc d.obj rl.symIndex (getAddendRel rl))
  rw [hsym, haddend]

/-- Witness for C7: the two relocation forms at offset `0x10` with
effective addend 4 resolve identically. -/
theorem c7_addend_equivalence_witness :
    (secC7a.areRelocsRela = true ∧ secC7b.areRelocsRela = false ∧
      secC7a.relas.find? (fun x => x.r_offset == 16) = some ⟨16, 0, 4⟩ ∧
      secC7b.rels.find? (fun x => x.r_offset == 16) = some ⟨16, 0, 4⟩ ∧
      (⟨16, 0, 4⟩ : ElfRela).symIndex = (⟨16, 0, 4⟩ : ElfRel).symIndex ∧
      getAddendRela ⟨16, 0, 4⟩ = getAddendRel ⟨16, 0, 4⟩) ∧
      dC7.find ⟨[], some secC7a⟩ 16 = dC7.find ⟨[], some secC7b⟩ 16 :=
  ⟨⟨rfl, rfl, rfl, rfl, rfl, rfl⟩,
    c7_addend_equivalence dC7 [] [] secC7a secC7b 16 ⟨16, 0, 4⟩ ⟨16, 0, 4⟩
      rfl rfl rfl rfl rfl rfl⟩

/-- C10: when several relocations share the queried source offset, the
lookup resolves using the first matching record in list order and ignores
the later ones — the result does not depend on `post` at all. -/
theorem c10_first_match_wins {R : Type} (file : ObjFile) (pos : Nat)
    (offsetOf symOf : R → Nat) (addendOf : R → Int) (pre post : List R)
    (r : R) (hpre : ∀ x ∈ pre, offsetOf x ≠ pos) (hr : offsetOf r = pos) :
    findAux file pos offsetOf symOf addendOf (pre ++ r :: post) =
      some (resolveReloc file (symOf r) (addendOf r)) := by
  induction pre with
  | nil =>
    unfold findAux
    have hc : (offsetOf r == pos) = true := by simpa using hr
    rw [List.nil_append]
    simp only [List.find?_cons]
    rw [hc]
  | cons a pre ih =>
    have ha : (offsetOf a == pos) = false := by
      simpa using hpre a (List.mem_cons_self a pre)
    have hrec := ih (fun x hx => hpre x (List.mem_cons_of_mem a hx))
    unfold findAux at hrec ⊢
    rw [List.cons_append]
    simp only [List.find?_cons]
    rw [ha]
    exact hrec

/-- Witness for C10: two relocations at offset `0x10` with different
addends; the lookup resolves via the first and ignores the second. -/
theorem c10_first_match_wins_witness :
    (∀ x ∈ ([] : List ElfRela), x.r_offset ≠ 16) ∧
      (⟨16, 0, 4⟩ : ElfRela).r_offset = 16 ∧
      findAux ⟨[some ⟨".data", [], false, 0, true, [], []⟩], [⟨4194304, 0⟩]⟩
          16 ElfRela.r_offset ElfRela.symIndex getAddendRela
          ([] ++ (⟨16, 0, 4⟩ : ElfRela) :: [⟨16, 1, 100⟩]) =
        some (resolveReloc
          ⟨[some ⟨".data", [], false, 0, true, [], []⟩], [⟨4194304, 0⟩]⟩
          0 (getAddendRela ⟨16, 0, 4⟩)) :=
  ⟨by simp, rfl,
    c10_first_match_wins
      ⟨[some ⟨".data", [], false, 0, true, [], []⟩], [⟨4194304, 0⟩]⟩
      16 ElfRela.r_offset ElfRela.symIndex getAddendRela [] [⟨16, 1, 100⟩]
      ⟨16, 0, 4⟩ (by simp) rfl⟩

/-- Witness for the amended C1 at the empty table (size 1024) and the
2000-entry example (size 4096). -/
theorem c1_size_amended_witness :
    GdbHashTab.empty.map.length * 4 / 3 < 2 ^ 31 ∧
      (∃ k, GdbHashTab.empty.finalizeContents.table.length = 2 ^ k) ∧
      1024 ≤ GdbHashTab.empty.finalizeContents.table.length ∧
      GdbHashTab.empty.map.length * 4 / 3 <
        GdbHashTab.empty.finalizeContents.table.length ∧
      (∀ m, (∃ k, m = 2 ^ k) → 1024 ≤ m →
        GdbHashTab.empty.map.length * 4 / 3 < m →
        GdbHashTab.empty.finalizeContents.table.length ≤ m) ∧
      tab2000.finalizeContents.table.length = 4096 :=
  ⟨by decide, c1_size_amended GdbHashTab.empty (by decide)⟩
